import Mathlib

/-!
Shallow embedding of the Notakto game core (src/src/App.tsx: the in-component
game state machine, and the embedded ai module: pattern catalog, board
evaluator, heuristic scorer, minimax with alpha-beta, findBestMove).

Modelling conventions:
* A cell holds either the empty string or the mark symbol in the source;
  here `Cell.empty` and `Cell.marked`.
* JavaScript out-of-range reads yield `undefined`, which compares unequal to
  the mark symbol; reads are therefore modelled with `List.getD` using a
  default that makes the comparison false in the same way.
* JavaScript numbers at the places the core uses them are exact: cell values
  are sums of halves (modelled as `ℚ`), scores are integers or the two
  infinities (modelled as `WithBot (WithTop ℤ)`).
* `Array.prototype.sort` with a consistent comparator is stable, so its
  output is the unique stable order; `sortMoves` below is a stable insertion
  sort computing that same output.
* `Math.random()` yields a real in `[0, 1)`; it is injected as an explicit
  rational parameter `r`, with `Math.floor` as `Rat.floor`.
-/

inductive Cell
  | empty
  | marked
deriving DecidableEq

abbrev Board := List Cell

structure Move where
  boardIndex : Nat
  cellIndex : Nat
deriving DecidableEq

/-- Pattern catalog from the ai module (`getWinPatterns`): the rows and
columns interleaved, then the two diagonals.  The memo cache is a pure
lookup, so it is transparent in the model. -/
def getWinPatterns (size : Nat) : List (List Nat) :=
  ((List.range size).flatMap (fun i =>
    [(List.range size).map (fun j => i * size + j),
     (List.range size).map (fun j => i + j * size)]))
  ++ [(List.range size).map (fun i => i * (size + 1)),
      (List.range size).map (fun i => (i + 1) * (size - 1))]

/-- Positional value of a cell (`getCellValue`): negated Manhattan distance
to the board center, whose coordinate is `(size - 1) / 2`.  The source keeps
the exact value (a sum of halves) and only ever compares two of them, so the
model stores twice that value, an integer, which preserves every
comparison. -/
def getCellValue (cellIndex : Nat) (size : Nat) : ℤ :=
  -(abs (2 * ((cellIndex / size : Nat) : ℤ) - ((size : ℤ) - 1)))
    - abs (2 * ((cellIndex % size : Nat) : ℤ) - ((size : ℤ) - 1))

/-- Dead-board test of the ai module (`isBoardDead`): some pattern fully
marked. -/
def isBoardDead (board : Board) (size : Nat) : Bool :=
  (getWinPatterns size).any (fun p => p.all (fun i => board.getD i Cell.empty == Cell.marked))

/-- Dead-board test of the App component, written there directly over rows,
columns and diagonals (slices clamp exactly as `drop`/`take` do). -/
def isBoardDeadApp (size : Nat) (board : Board) : Bool :=
  ((List.range size).any (fun i =>
    ((board.drop (i * size)).take size).all (fun c => c == Cell.marked)
    || ((List.range size).map (fun j => board.getD (i + j * size) Cell.empty)).all
         (fun c => c == Cell.marked)))
  || ((List.range size).map (fun i => board.getD (i * (size + 1)) Cell.empty)).all
       (fun c => c == Cell.marked)
  || ((List.range size).map (fun i => board.getD ((i + 1) * (size - 1)) Cell.empty)).all
       (fun c => c == Cell.marked)

/-- Count of marked cells a pattern sees on a board (the `xCount` loop). -/
def countMarked (board : Board) (pattern : List Nat) : Nat :=
  pattern.countP (fun i => board.getD i Cell.empty == Cell.marked)

/-- Inner pattern scan of `heuristic`: subtract 10 and stop at the first
pattern with `size - 1` marks, subtract 1 for each pattern with `size - 2`
marks seen before that.  The thresholds are integers because the source
computes `size - 1 - 1`, which is `-1` when `size = 1`. -/
def scanPatterns (board : Board) (sizeMinus1 : ℤ) : List (List Nat) → ℤ → ℤ
  | [], acc => acc
  | p :: ps, acc =>
    let xCount : ℤ := countMarked board p
    if xCount = sizeMinus1 then acc - 10
    else if xCount = sizeMinus1 - 1 then scanPatterns board sizeMinus1 ps (acc - 1)
    else scanPatterns board sizeMinus1 ps acc

/-- Heuristic scorer (`heuristic`): dead boards are skipped, live boards add
their pattern-scan contribution. -/
def heuristic (boards : List Board) (size : Nat) : ℤ :=
  boards.foldl (fun score b =>
    if isBoardDead b size then score
    else score + scanPatterns b ((size : ℤ) - 1) (getWinPatterns size) 0) 0

/-- Candidate moves before sorting: for each live board in order, each empty
cell in order. -/
def getValidMovesUnsorted (boards : List Board) (size : Nat) : List Move :=
  (List.range boards.length).flatMap (fun bi =>
    if isBoardDead (boards.getD bi []) size then []
    else (List.range (boards.getD bi []).length).filterMap (fun ci =>
      if (boards.getD bi []).getD ci Cell.marked = Cell.empty then some ⟨bi, ci⟩ else none))

/-- Comparator of `getValidMoves`: `a` may precede `b` when its cell value is
at least `b`'s (the source comparator returns `value b - value a`). -/
def moveLE (size : Nat) (a b : Move) : Bool :=
  decide (getCellValue b.cellIndex size ≤ getCellValue a.cellIndex size)

def insertMove (size : Nat) (m : Move) : List Move → List Move
  | [] => [m]
  | y :: ys => if moveLE size m y then m :: y :: ys else y :: insertMove size m ys

/-- Stable sort by descending cell value; `Array.prototype.sort` is stable,
so its output is exactly this list. -/
def sortMoves (size : Nat) : List Move → List Move
  | [] => []
  | x :: xs => insertMove size x (sortMoves size xs)

/-- Move generation (`getValidMoves`): candidates sorted center-first. -/
def getValidMoves (boards : List Board) (size : Nat) : List Move :=
  sortMoves size (getValidMovesUnsorted boards size)

/-- Copy-and-mark (`updateBoards`): fresh board set with one cell marked. -/
def updateBoards (boards : List Board) (m : Move) : List Board :=
  boards.set m.boardIndex ((boards.getD m.boardIndex []).set m.cellIndex Cell.marked)

/-- Score type of the search: integers together with the two infinities. -/
abbrev Score := WithBot (WithTop ℤ)

def toScore (n : ℤ) : Score := ((n : WithTop ℤ) : Score)

/-- Terminal test of `minimax`: every board dead. -/
def allDead (boards : List Board) (size : Nat) : Bool :=
  boards.all (fun b => isBoardDead b size)

/-- Depth budget (`getMaxDepth`). -/
def getMaxDepth (boardSize numberOfBoards difficulty : Nat) : Nat :=
  let complexity := boardSize * numberOfBoards
  if complexity ≤ 9 then min 5 (difficulty + 2)
  else if complexity ≤ 16 then min 4 (difficulty + 1)
  else min 3 difficulty

/-- Move loop of `minimax`, abstracted over the evaluation `rec` of a child
position: fold the child value into the running best, tighten the window,
and break as soon as `beta ≤ alpha`. -/
def minimaxLoop (rec : List Board → Score → Score → Score) (isMax : Bool)
    (boards : List Board) : List Move → Score → Score → Score → Score
  | [], best, _, _ => best
  | m :: rest, best, alpha, beta =>
    let value := rec (updateBoards boards m) alpha beta
    if isMax then
      let best2 := max best value
      let alpha2 := max alpha value
      if beta ≤ alpha2 then best2
      else minimaxLoop rec isMax boards rest best2 alpha2 beta
    else
      let best2 := min best value
      let beta2 := min beta value
      if beta2 ≤ alpha then best2
      else minimaxLoop rec isMax boards rest best2 alpha beta2

/-- Alpha-beta minimax (`minimax`): terminal check first, heuristic at depth
zero, otherwise the pruned move loop. -/
def minimax (boards : List Board) (depth : Nat) (isMax : Bool) (size : Nat)
    (alpha beta : Score) : Score :=
  if allDead boards size then (if isMax then ⊥ else ⊤)
  else
    match depth with
    | 0 => toScore (heuristic boards size)
    | d + 1 =>
      minimaxLoop (fun nb a b => minimax nb d (!isMax) size a b) isMax boards
        (getValidMoves boards size) (if isMax then ⊥ else ⊤) alpha beta

/-- Modelled from the spec: the move loop of plain minimax with no pruning
(the repository has no unpruned search; section 8 of the spec compares the
pruned search against it). -/
def plainLoop (rec : List Board → Score) (isMax : Bool) (boards : List Board) :
    List Move → Score → Score
  | [], best => best
  | m :: rest, best =>
    let value := rec (updateBoards boards m)
    plainLoop rec isMax boards rest (if isMax then max best value else min best value)

/-- Modelled from the spec: plain minimax with no pruning, identical to
`minimax` except that the move loop never cuts off. -/
def minimaxPlain (boards : List Board) (depth : Nat) (isMax : Bool) (size : Nat) : Score :=
  if allDead boards size then (if isMax then ⊥ else ⊤)
  else
    match depth with
    | 0 => toScore (heuristic boards size)
    | d + 1 =>
      plainLoop (fun nb => minimaxPlain nb d (!isMax) size) isMax boards
        (getValidMoves boards size) (if isMax then ⊥ else ⊤)

/-- Score assigned to a root move by `findBestMove`. -/
def moveScoreAt (boards : List Board) (maxDepth size : Nat) (m : Move) : Score :=
  minimax (updateBoards boards m) maxDepth false size ⊥ ⊤

/-- One candidate update of `findBestMove` (the body computing `next` from a
move's score): a strictly better score resets the tied list to that move, an
equal score appends it, a worse score changes nothing. -/
def fbStep (m : Move) (moveScore bestScore : Score) (bestMoves : List Move) :
    Score × List Move :=
  if bestScore < moveScore then (moveScore, [m])
  else if moveScore = bestScore then (bestScore, bestMoves ++ [m])
  else (bestScore, bestMoves)

/-- Candidate loop of `findBestMove`: track the best score and the list of
moves tied for it, stopping right after a move that scores plus infinity. -/
def fbLoop (scoreOf : Move → Score) : List Move → Score → List Move → Score × List Move
  | [], bestScore, bestMoves => (bestScore, bestMoves)
  | m :: rest, bestScore, bestMoves =>
    if scoreOf m = ⊤ then fbStep m (scoreOf m) bestScore bestMoves
    else fbLoop scoreOf rest (fbStep m (scoreOf m) bestScore bestMoves).1
      (fbStep m (scoreOf m) bestScore bestMoves).2

/-- Tied-best list tracked by `findBestMove` up to its early exit. -/
def bestMovesOf (boards : List Board) (difficulty size numberOfBoards : Nat) : List Move :=
  (fbLoop (moveScoreAt boards (getMaxDepth size numberOfBoards difficulty) size)
    (getValidMoves boards size) ⊥ []).2

/-- Root search (`findBestMove`); `r` is the value `Math.random()` produced,
a rational in `[0, 1)`, and the returned element is the tied-best entry at
index `Math.floor(r * length)`. -/
def findBestMove (r : ℚ) (boards : List Board)
    (difficulty size numberOfBoards : Nat) : Option Move :=
  if getValidMoves boards size = [] then none
  else
    (bestMovesOf boards difficulty size numberOfBoards)[(Rat.floor
      (r * ((bestMovesOf boards difficulty size numberOfBoards).length : ℚ))).toNat]?

inductive Player
  | one
  | two
deriving DecidableEq

def Player.other : Player → Player
  | .one => .two
  | .two => .one

/-- Game state owned by the App component: the authoritative board set, the
turn marker, and the append-only history of board-set snapshots. -/
structure GameState where
  boards : List Board
  currentPlayer : Player
  gameHistory : List (List Board)
deriving DecidableEq

/-- Fresh board list built by `handleMove` (its `newBoards` binding): every
board is copied, and the target board is rebuilt with the target cell marked
via the two slices around it. -/
def newBoardsAfter (s : GameState) (boardIndex cellIndex : Nat) : List Board :=
  s.boards.mapIdx (fun idx b =>
    if idx = boardIndex then b.take cellIndex ++ Cell.marked :: b.drop (cellIndex + 1) else b)

/-- Move application (`handleMove`).  The second component reports the loser
when the move ends the match (the winner modal names the other side).  An
out-of-range cell read yields `undefined` in the source, which fails the
emptiness test, hence the `Cell.marked` default; an out-of-range board index
would throw in the source, leaving state unchanged, and here reads the empty
board, whose cell reads likewise refuse. -/
def handleMove (size : Nat) (s : GameState) (boardIndex cellIndex : Nat) :
    GameState × Option Player :=
  if (s.boards.getD boardIndex []).getD cellIndex Cell.marked ≠ Cell.empty
      ∨ isBoardDeadApp size (s.boards.getD boardIndex []) then (s, none)
  else if (newBoardsAfter s boardIndex cellIndex).all (fun b => isBoardDeadApp size b) then
    ({ boards := newBoardsAfter s boardIndex cellIndex,
       currentPlayer := s.currentPlayer,
       gameHistory := s.gameHistory ++ [newBoardsAfter s boardIndex cellIndex] },
      some s.currentPlayer)
  else
    ({ boards := newBoardsAfter s boardIndex cellIndex,
       currentPlayer := s.currentPlayer.other,
       gameHistory := s.gameHistory ++ [newBoardsAfter s boardIndex cellIndex] }, none)

/-- Fresh state (`resetGame`): all-empty boards, side one to move, history
holding the single initial snapshot. -/
def resetGame (num size : Nat) : GameState :=
  let initialBoards := List.replicate num (List.replicate (size * size) Cell.empty)
  { boards := initialBoards, currentPlayer := Player.one, gameHistory := [initialBoards] }

/-- Undo (`handleUndo`): with at least three snapshots and enough coins, roll
back two plies; `slice(0, -2)` keeps all but the last two snapshots.  The
coin deduction itself belongs to the economy layer and is not part of the
game state. -/
def handleUndo (coins : Nat) (s : GameState) : GameState :=
  if 3 ≤ s.gameHistory.length then
    if 100 ≤ coins then
      { boards := s.gameHistory.getD (s.gameHistory.length - 3) [],
        currentPlayer := s.currentPlayer,
        gameHistory := s.gameHistory.take (s.gameHistory.length - 2) }
    else s
  else s

/-! Helper lemmas about the pattern catalog and dead-board tests. -/

lemma mem_getWinPatterns {size : Nat} {p : List Nat} :
    p ∈ getWinPatterns size ↔
      (∃ i < size, p = (List.range size).map (fun j => i * size + j) ∨
        p = (List.range size).map (fun j => i + j * size)) ∨
      p = (List.range size).map (fun i => i * (size + 1)) ∨
      p = (List.range size).map (fun i => (i + 1) * (size - 1)) := by
  simp only [getWinPatterns, List.mem_append, List.mem_flatMap, List.mem_range]
  constructor
  · rintro (⟨i, hi, hp⟩ | hp)
    · simp only [List.mem_cons, List.mem_singleton] at hp
      exact Or.inl ⟨i, hi, by tauto⟩
    · simp only [List.mem_cons, List.mem_singleton] at hp
      tauto
  · rintro (⟨i, hi, hp | hp⟩ | hp | hp)
    · exact Or.inl ⟨i, hi, by simp [hp]⟩
    · exact Or.inl ⟨i, hi, by simp [hp]⟩
    · exact Or.inr (by simp [hp])
    · exact Or.inr (by simp [hp])

lemma rowcol_lt_sq {size i j : Nat} (hi : i < size) (hj : j < size) :
    i * size + j < size * size := by
  have h1 : i * size + j < i * size + size := Nat.add_lt_add_left hj _
  have h2 : i * size + size = (i + 1) * size := by ring
  have h3 : (i + 1) * size ≤ size * size := Nat.mul_le_mul_right _ hi
  exact lt_of_lt_of_le (h2 ▸ h1) h3

lemma isBoardDead_iff {b : Board} {size : Nat} :
    isBoardDead b size = true ↔
      ∃ p ∈ getWinPatterns size, ∀ i ∈ p, b.getD i Cell.empty = Cell.marked := by
  simp [isBoardDead, List.any_eq_true, List.all_eq_true]

lemma getD_marked_lt_length {b : Board} {i : Nat}
    (h : b.getD i Cell.empty = Cell.marked) : i < b.length := by
  by_contra hle
  rw [List.getD_eq_getElem?_getD, List.getElem?_eq_none (by omega)] at h
  simp at h

lemma slice_all_marked_iff {b : Board} {m n : Nat} :
    ((b.drop m).take n).all (fun c => c == Cell.marked) = true ↔
      ∀ k, k < n → m + k < b.length → b.getD (m + k) Cell.empty = Cell.marked := by
  rw [List.all_eq_true]
  constructor
  · intro h k hk hmk
    have hklen : k < ((b.drop m).take n).length := by
      simp only [List.length_take, List.length_drop]
      omega
    have hx := h (((b.drop m).take n).get ⟨k, hklen⟩) (List.getElem_mem hklen)
    rw [List.get_eq_getElem, List.getElem_take, List.getElem_drop] at hx
    rw [List.getD_eq_getElem?_getD, List.getElem?_eq_getElem hmk]
    simpa using hx
  · intro h x hx
    rw [List.mem_iff_getElem] at hx
    obtain ⟨k, hklen, rfl⟩ := hx
    have hkn : k < n := by
      have := hklen
      simp only [List.length_take, List.length_drop] at this
      omega
    have hmk : m + k < b.length := by
      have := hklen
      simp only [List.length_take, List.length_drop] at this
      omega
    have := h k hkn hmk
    rw [List.getD_eq_getElem?_getD, List.getElem?_eq_getElem hmk] at this
    rw [List.getElem_take, List.getElem_drop]
    simpa using this

lemma mapped_all_marked_iff {b : Board} {size : Nat} {g : Nat → Nat} :
    (((List.range size).map (fun j => b.getD (g j) Cell.empty)).all
      (fun c => c == Cell.marked) = true) ↔
      ∀ j < size, b.getD (g j) Cell.empty = Cell.marked := by
  simp [List.all_eq_true]

/-- C8: for every size at least 1, the pattern catalog has exactly
2·size + 2 patterns, each of exactly size distinct indices all inside the
board, and it contains each row, each column, and the two diagonals. -/
theorem getWinPatterns_spec (size : Nat) (hsize : 1 ≤ size) :
    (getWinPatterns size).length = 2 * size + 2 ∧
    (∀ p ∈ getWinPatterns size, p.length = size ∧ p.Nodup ∧
      ∀ idx ∈ p, idx < size * size) ∧
    (∀ i < size,
      (List.range size).map (fun j => i * size + j) ∈ getWinPatterns size ∧
      (List.range size).map (fun j => i + j * size) ∈ getWinPatterns size) ∧
    (List.range size).map (fun i => i * (size + 1)) ∈ getWinPatterns size ∧
    (List.range size).map (fun i => (i + 1) * (size - 1)) ∈ getWinPatterns size := by
  have hpos : 0 < size := hsize
  refine ⟨?_, ?_, ?_, ?_, ?_⟩
  · have : ∀ l : List Nat, (l.flatMap (fun i =>
        [(List.range size).map (fun j => i * size + j),
         (List.range size).map (fun j => i + j * size)])).length = 2 * l.length := by
      intro l
      induction l with
      | nil => simp
      | cons a t ih => simp [ih]; ring
    simp [getWinPatterns, List.length_append, this, List.length_range]
  · intro p hp
    rw [mem_getWinPatterns] at hp
    rcases hp with ⟨i, hi, rfl | rfl⟩ | rfl | rfl
    · refine ⟨by simp, List.Nodup.map (fun a b h => by omega) (List.nodup_range size), ?_⟩
      intro idx hidx
      simp only [List.mem_map, List.mem_range] at hidx
      obtain ⟨j, hj, rfl⟩ := hidx
      exact rowcol_lt_sq hi hj
    · refine ⟨by simp, List.Nodup.map (fun a b h => ?_) (List.nodup_range size), ?_⟩
      · have : a * size = b * size := by omega
        exact Nat.eq_of_mul_eq_mul_right hpos this
      · intro idx hidx
        simp only [List.mem_map, List.mem_range] at hidx
        obtain ⟨j, hj, rfl⟩ := hidx
        have := rowcol_lt_sq hj hi
        omega
    · refine ⟨by simp, List.Nodup.map (fun a b h => ?_) (List.nodup_range size), ?_⟩
      · exact Nat.eq_of_mul_eq_mul_right (by omega) h
      · intro idx hidx
        simp only [List.mem_map, List.mem_range] at hidx
        obtain ⟨i, hi, rfl⟩ := hidx
        have : i * (size + 1) = i * size + i := by ring
        rw [this]
        have := rowcol_lt_sq hi hi
        omega
    · refine ⟨by simp, ?_, ?_⟩
      · rcases Nat.lt_or_ge size 2 with h2 | h2
        · interval_cases size
          · simp
        · exact List.Nodup.map
            (fun a b h => by
              have h2 : a + 1 = b + 1 :=
                Nat.eq_of_mul_eq_mul_right (show 0 < size - 1 by omega) h
              omega)
            (List.nodup_range size)
      · intro idx hidx
        simp only [List.mem_map, List.mem_range] at hidx
        obtain ⟨i, hi, rfl⟩ := hidx
        have h1 : (i + 1) * (size - 1) ≤ size * (size - 1) :=
          Nat.mul_le_mul_right _ (by omega)
        have h2 : size * (size - 1) < size * size :=
          mul_lt_mul_of_pos_left (by omega) hpos
        omega
  · intro i hi
    constructor
    · rw [mem_getWinPatterns]; exact Or.inl ⟨i, hi, Or.inl rfl⟩
    · rw [mem_getWinPatterns]; exact Or.inl ⟨i, hi, Or.inr rfl⟩
  · rw [mem_getWinPatterns]; exact Or.inr (Or.inl rfl)
  · rw [mem_getWinPatterns]; exact Or.inr (Or.inr rfl)

theorem getWinPatterns_spec_witness :
    1 ≤ 3 ∧
    ((getWinPatterns 3).length = 2 * 3 + 2 ∧
    (∀ p ∈ getWinPatterns 3, p.length = 3 ∧ p.Nodup ∧ ∀ idx ∈ p, idx < 3 * 3) ∧
    (∀ i < 3,
      (List.range 3).map (fun j => i * 3 + j) ∈ getWinPatterns 3 ∧
      (List.range 3).map (fun j => i + j * 3) ∈ getWinPatterns 3) ∧
    (List.range 3).map (fun i => i * (3 + 1)) ∈ getWinPatterns 3 ∧
    (List.range 3).map (fun i => (i + 1) * (3 - 1)) ∈ getWinPatterns 3) :=
  ⟨by decide, getWinPatterns_spec 3 (by decide)⟩

/-- C9: dead-ness is monotone under marking, for both the ai module's
pattern-based test and the App component's direct test: marking additional
empty cells of a board never revokes dead-ness. -/
theorem isBoardDead_monotone (b1 b2 : Board) (size : Nat)
    (hlen : b1.length = b2.length)
    (hmono : ∀ i < b1.length,
      b1.getD i Cell.empty = Cell.marked → b2.getD i Cell.empty = Cell.marked) :
    (isBoardDead b1 size = true → isBoardDead b2 size = true) ∧
    (isBoardDeadApp size b1 = true → isBoardDeadApp size b2 = true) := by
  have hmono' : ∀ i, b1.getD i Cell.empty = Cell.marked →
      b2.getD i Cell.empty = Cell.marked := by
    intro i h
    exact hmono i (getD_marked_lt_length h) h
  constructor
  · intro h
    rw [isBoardDead_iff] at h ⊢
    obtain ⟨p, hp, hall⟩ := h
    exact ⟨p, hp, fun i hi => hmono' i (hall i hi)⟩
  · intro h
    simp only [isBoardDeadApp, Bool.or_eq_true, List.any_eq_true, List.mem_range] at h ⊢
    rcases h with (⟨i, hi, hrow | hcol⟩ | hd1) | hd2
    · refine Or.inl (Or.inl ⟨i, hi, Or.inl ?_⟩)
      rw [slice_all_marked_iff] at hrow ⊢
      intro k hk hmk
      exact hmono' _ (hrow k hk (by omega))
    · refine Or.inl (Or.inl ⟨i, hi, Or.inr ?_⟩)
      rw [mapped_all_marked_iff] at hcol ⊢
      exact fun j hj => hmono' _ (hcol j hj)
    · refine Or.inl (Or.inr ?_)
      rw [mapped_all_marked_iff] at hd1 ⊢
      exact fun j hj => hmono' _ (hd1 j hj)
    · refine Or.inr ?_
      rw [mapped_all_marked_iff] at hd2 ⊢
      exact fun j hj => hmono' _ (hd2 j hj)

theorem isBoardDead_monotone_witness :
    (([Cell.marked, Cell.marked, Cell.empty, Cell.empty] : Board).length =
      ([Cell.marked, Cell.marked, Cell.marked, Cell.empty] : Board).length) ∧
    (∀ i < ([Cell.marked, Cell.marked, Cell.empty, Cell.empty] : Board).length,
      ([Cell.marked, Cell.marked, Cell.empty, Cell.empty] : Board).getD i Cell.empty =
        Cell.marked →
      ([Cell.marked, Cell.marked, Cell.marked, Cell.empty] : Board).getD i Cell.empty =
        Cell.marked) ∧
    ((isBoardDead [Cell.marked, Cell.marked, Cell.empty, Cell.empty] 2 = true →
      isBoardDead [Cell.marked, Cell.marked, Cell.marked, Cell.empty] 2 = true) ∧
     (isBoardDeadApp 2 [Cell.marked, Cell.marked, Cell.empty, Cell.empty] = true →
      isBoardDeadApp 2 [Cell.marked, Cell.marked, Cell.marked, Cell.empty] = true)) :=
  ⟨by decide, by decide,
    isBoardDead_monotone [Cell.marked, Cell.marked, Cell.empty, Cell.empty]
      [Cell.marked, Cell.marked, Cell.marked, Cell.empty] 2 (by decide) (by decide)⟩

/-- C5: when every board is dead, minimax returns bottom if maximizing and
top otherwise, at any depth and window; when some board is live, minimax at
depth zero returns exactly the heuristic score. -/
theorem minimax_terminal_and_cutoff (boards : List Board) (depth : Nat) (isMax : Bool)
    (size : Nat) (alpha beta : Score) :
    ((∀ b ∈ boards, isBoardDead b size = true) →
      minimax boards depth isMax size alpha beta = (if isMax then ⊥ else ⊤)) ∧
    ((∃ b ∈ boards, isBoardDead b size = false) →
      minimax boards 0 isMax size alpha beta = toScore (heuristic boards size)) := by
  constructor
  · intro h
    have hd : allDead boards size = true := by
      rw [allDead, List.all_eq_true]; exact h
    cases depth <;> simp [minimax, hd]
  · rintro ⟨b, hb, hdead⟩
    have hd : ¬ allDead boards size = true := by
      rw [allDead, List.all_eq_true]
      intro hall
      rw [hall b hb] at hdead
      exact absurd hdead (by simp)
    simp [minimax, hd]

def deadSet2 : List Board := [[Cell.marked, Cell.marked, Cell.empty, Cell.empty]]

def liveSet2 : List Board := [[Cell.marked, Cell.empty, Cell.empty, Cell.empty]]

theorem minimax_terminal_and_cutoff_witness :
    ((∀ b ∈ deadSet2, isBoardDead b 2 = true) ∧
      minimax deadSet2 4 true 2 ⊥ ⊤ = (if true then (⊥ : Score) else ⊤)) ∧
    ((∃ b ∈ liveSet2, isBoardDead b 2 = false) ∧
      minimax liveSet2 0 false 2 ⊥ ⊤ = toScore (heuristic liveSet2 2)) :=
  ⟨⟨by decide, (minimax_terminal_and_cutoff deadSet2 4 true 2 ⊥ ⊤).1 (by decide)⟩,
   ⟨by decide, (minimax_terminal_and_cutoff liveSet2 0 false 2 ⊥ ⊤).2 (by decide)⟩⟩

/-! Helper lemmas about move application. -/

lemma mapIdx_ite_set {l : List Board} {n : Nat} {x : Board} (f : Board → Board)
    (h : l[n]? = some x) :
    l.mapIdx (fun idx b => if idx = n then f b else b) = l.set n (f x) := by
  have hn : n < l.length := (List.getElem?_eq_some.1 h).1
  apply List.ext_getElem?
  intro i
  rw [List.getElem?_mapIdx, List.getElem?_set]
  by_cases hin : n = i
  · subst hin
    rw [h]
    simp [hn]
  · rcases hli : l[i]? with _ | b
    · simp [hin]
    · simp [Ne.symm hin, hin]

lemma take_cons_drop_eq_set {b : Board} {ci : Nat} (hci : ci < b.length) :
    b.take ci ++ Cell.marked :: b.drop (ci + 1) = b.set ci Cell.marked := by
  rw [List.set_eq_take_append_cons_drop, if_pos hci]

lemma getD_empty_ne_marked {ci : Nat} : ([] : Board).getD ci Cell.marked = Cell.marked := by
  simp [List.getD_eq_getElem?_getD]

lemma board_index_lt {s : GameState} {bi ci : Nat} {board : Board}
    (hb : s.boards.getD bi [] = board)
    (hc : board.getD ci Cell.marked = Cell.empty) : bi < s.boards.length := by
  by_contra hle
  rw [List.getD_eq_getElem?_getD, List.getElem?_eq_none (by omega)] at hb
  simp only [Option.getD_none] at hb
  rw [← hb] at hc
  rw [getD_empty_ne_marked] at hc
  exact absurd hc (by simp)

lemma newBoardsAfter_eq_set {s : GameState} {bi ci : Nat} {board : Board}
    (hb : s.boards.getD bi [] = board)
    (hc : board.getD ci Cell.marked = Cell.empty) :
    newBoardsAfter s bi ci = s.boards.set bi (board.set ci Cell.marked) := by
  have hbi : bi < s.boards.length := board_index_lt hb hc
  have hci : ci < board.length := by
    by_contra hle
    rw [List.getD_eq_getElem?_getD, List.getElem?_eq_none (by omega)] at hc
    exact absurd hc (by simp)
  have hsome : s.boards[bi]? = some board := by
    rw [List.getElem?_eq_getElem hbi]
    rw [List.getD_eq_getElem?_getD, List.getElem?_eq_getElem hbi] at hb
    simpa using hb
  unfold newBoardsAfter
  rw [mapIdx_ite_set (fun b => b.take ci ++ Cell.marked :: b.drop (ci + 1)) hsome,
    take_cons_drop_eq_set hci]

lemma handleMove_legal_eq {size : Nat} {s : GameState} {bi ci : Nat} {board : Board}
    (hb : s.boards.getD bi [] = board)
    (hc : board.getD ci Cell.marked = Cell.empty)
    (hdead : isBoardDeadApp size board = false) :
    handleMove size s bi ci =
      (if (s.boards.set bi (board.set ci Cell.marked)).all
            (fun b => isBoardDeadApp size b) then
        ({ boards := s.boards.set bi (board.set ci Cell.marked),
           currentPlayer := s.currentPlayer,
           gameHistory := s.gameHistory ++ [s.boards.set bi (board.set ci Cell.marked)] },
          some s.currentPlayer)
      else
        ({ boards := s.boards.set bi (board.set ci Cell.marked),
           currentPlayer := s.currentPlayer.other,
           gameHistory := s.gameHistory ++ [s.boards.set bi (board.set ci Cell.marked)] },
          none)) := by
  unfold handleMove
  rw [hb]
  rw [if_neg (by
    simp only [not_or, not_not]
    exact ⟨hc, by simp [hdead]⟩)]
  rw [newBoardsAfter_eq_set hb hc]

lemma handleMove_refused_eq {size : Nat} {s : GameState} {bi ci : Nat}
    (h : (s.boards.getD bi []).getD ci Cell.marked ≠ Cell.empty
      ∨ isBoardDeadApp size (s.boards.getD bi []) = true) :
    handleMove size s bi ci = (s, none) := by
  unfold handleMove
  rw [if_pos h]

/-- C1: applying a legal move (target board live, target cell empty) marks
exactly that cell, appends the new board set to history, and flips the turn
marker, except that when the move leaves every board dead the marker is not
flipped and the mover is reported as the loser. -/
theorem handleMove_spec (size : Nat) (s : GameState) (bi ci : Nat) (board : Board)
    (hb : s.boards.getD bi [] = board)
    (hc : board.getD ci Cell.marked = Cell.empty)
    (hdead : isBoardDeadApp size board = false) :
    (handleMove size s bi ci).1.boards = s.boards.set bi (board.set ci Cell.marked) ∧
    (handleMove size s bi ci).1.gameHistory =
      s.gameHistory ++ [s.boards.set bi (board.set ci Cell.marked)] ∧
    ((s.boards.set bi (board.set ci Cell.marked)).all
        (fun b => isBoardDeadApp size b) = true →
      (handleMove size s bi ci).1.currentPlayer = s.currentPlayer ∧
      (handleMove size s bi ci).2 = some s.currentPlayer) ∧
    ((s.boards.set bi (board.set ci Cell.marked)).all
        (fun b => isBoardDeadApp size b) = false →
      (handleMove size s bi ci).1.currentPlayer = s.currentPlayer.other ∧
      (handleMove size s bi ci).2 = none) := by
  rw [handleMove_legal_eq hb hc hdead]
  by_cases hall : (s.boards.set bi (board.set ci Cell.marked)).all
      (fun b => isBoardDeadApp size b) = true
  · simp [hall]
  · rw [Bool.not_eq_true] at hall
    simp [hall]

def stateEmpty2 : GameState :=
  { boards := [[Cell.empty, Cell.empty, Cell.empty, Cell.empty]],
    currentPlayer := Player.one,
    gameHistory := [[[Cell.empty, Cell.empty, Cell.empty, Cell.empty]]] }

theorem handleMove_spec_witness :
    (stateEmpty2.boards.getD 0 [] = [Cell.empty, Cell.empty, Cell.empty, Cell.empty] ∧
     ([Cell.empty, Cell.empty, Cell.empty, Cell.empty] : Board).getD 0 Cell.marked =
       Cell.empty ∧
     isBoardDeadApp 2 [Cell.empty, Cell.empty, Cell.empty, Cell.empty] = false) ∧
    ((handleMove 2 stateEmpty2 0 0).1.boards =
      stateEmpty2.boards.set 0
        (([Cell.empty, Cell.empty, Cell.empty, Cell.empty] : Board).set 0 Cell.marked) ∧
    (handleMove 2 stateEmpty2 0 0).1.gameHistory =
      stateEmpty2.gameHistory ++ [stateEmpty2.boards.set 0
        (([Cell.empty, Cell.empty, Cell.empty, Cell.empty] : Board).set 0 Cell.marked)] ∧
    ((stateEmpty2.boards.set 0
        (([Cell.empty, Cell.empty, Cell.empty, Cell.empty] : Board).set 0 Cell.marked)).all
        (fun b => isBoardDeadApp 2 b) = true →
      (handleMove 2 stateEmpty2 0 0).1.currentPlayer = stateEmpty2.currentPlayer ∧
      (handleMove 2 stateEmpty2 0 0).2 = some stateEmpty2.currentPlayer) ∧
    ((stateEmpty2.boards.set 0
        (([Cell.empty, Cell.empty, Cell.empty, Cell.empty] : Board).set 0 Cell.marked)).all
        (fun b => isBoardDeadApp 2 b) = false →
      (handleMove 2 stateEmpty2 0 0).1.currentPlayer = stateEmpty2.currentPlayer.other ∧
      (handleMove 2 stateEmpty2 0 0).2 = none)) :=
  ⟨⟨by decide, by decide, by decide⟩,
    handleMove_spec 2 stateEmpty2 0 0 [Cell.empty, Cell.empty, Cell.empty, Cell.empty]
      (by decide) (by decide) (by decide)⟩

/-- C2: with the target indices in range, `handleMove` leaves the game state
(boards, turn marker, history) unchanged precisely when the target cell is
not empty or the target board is dead; in the remaining combination (empty
cell on a live board) the state does change. -/
theorem handleMove_noop_iff (size : Nat) (s : GameState) (bi ci : Nat) (board : Board)
    (hb : s.boards.getD bi [] = board) (_hci : ci < board.length) :
    (handleMove size s bi ci).1 = s ↔
      (board.getD ci Cell.marked ≠ Cell.empty ∨ isBoardDeadApp size board = true) := by
  constructor
  · intro heq
    by_contra hno
    push_neg at hno
    obtain ⟨hc, hd⟩ := hno
    have hd' : isBoardDeadApp size board = false := by
      simpa using hd
    rw [handleMove_legal_eq hb hc hd'] at heq
    by_cases hall : (s.boards.set bi (board.set ci Cell.marked)).all
        (fun b => isBoardDeadApp size b) = true
    · rw [if_pos hall] at heq
      have := congrArg (fun t => t.gameHistory.length) heq
      simp at this
    · rw [Bool.not_eq_true] at hall
      rw [if_neg (by simp [hall])] at heq
      have := congrArg (fun t => t.gameHistory.length) heq
      simp at this
  · intro h
    rw [handleMove_refused_eq (by rw [hb]; exact h)]

def stateMixed2 : GameState :=
  { boards := [[Cell.marked, Cell.empty, Cell.empty, Cell.empty],
               [Cell.marked, Cell.marked, Cell.empty, Cell.empty]],
    currentPlayer := Player.one,
    gameHistory := [[[Cell.marked, Cell.empty, Cell.empty, Cell.empty],
                     [Cell.marked, Cell.marked, Cell.empty, Cell.empty]]] }

theorem handleMove_noop_iff_witness :
    (stateMixed2.boards.getD 0 [] = [Cell.marked, Cell.empty, Cell.empty, Cell.empty] ∧
     stateMixed2.boards.getD 1 [] = [Cell.marked, Cell.marked, Cell.empty, Cell.empty] ∧
     (1 : Nat) < 4 ∧ (0 : Nat) < 4 ∧ (2 : Nat) < 4) ∧
    ((handleMove 2 stateMixed2 0 1).1 = stateMixed2 ↔
      (([Cell.marked, Cell.empty, Cell.empty, Cell.empty] : Board).getD 1 Cell.marked ≠
        Cell.empty ∨
        isBoardDeadApp 2 [Cell.marked, Cell.empty, Cell.empty, Cell.empty] = true)) ∧
    ((handleMove 2 stateMixed2 0 0).1 = stateMixed2 ↔
      (([Cell.marked, Cell.empty, Cell.empty, Cell.empty] : Board).getD 0 Cell.marked ≠
        Cell.empty ∨
        isBoardDeadApp 2 [Cell.marked, Cell.empty, Cell.empty, Cell.empty] = true)) ∧
    ((handleMove 2 stateMixed2 1 2).1 = stateMixed2 ↔
      (([Cell.marked, Cell.marked, Cell.empty, Cell.empty] : Board).getD 2 Cell.marked ≠
        Cell.empty ∨
        isBoardDeadApp 2 [Cell.marked, Cell.marked, Cell.empty, Cell.empty] = true)) ∧
    ((handleMove 2 stateMixed2 1 0).1 = stateMixed2 ↔
      (([Cell.marked, Cell.marked, Cell.empty, Cell.empty] : Board).getD 0 Cell.marked ≠
        Cell.empty ∨
        isBoardDeadApp 2 [Cell.marked, Cell.marked, Cell.empty, Cell.empty] = true)) :=
  ⟨⟨by decide, by decide, by decide, by decide, by decide⟩,
    handleMove_noop_iff 2 stateMixed2 0 1 _ (by decide) (by decide),
    handleMove_noop_iff 2 stateMixed2 0 0 _ (by decide) (by decide),
    handleMove_noop_iff 2 stateMixed2 1 2 _ (by decide) (by decide),
    handleMove_noop_iff 2 stateMixed2 1 0 _ (by decide) (by decide)⟩

/-- History-tail invariant: the authoritative board set equals the final
history snapshot. -/
abbrev historyInv (s : GameState) : Prop := s.gameHistory.getLast? = some s.boards

/-- C10: the invariant that the current board set is the last history
snapshot holds after a reset and is preserved by every move application
(applied or refused) and by every undo. -/
theorem history_last_invariant :
    (∀ num size, historyInv (resetGame num size)) ∧
    (∀ size s bi ci, historyInv s → historyInv (handleMove size s bi ci).1) ∧
    (∀ coins s, historyInv s → historyInv (handleUndo coins s)) := by
  refine ⟨?_, ?_, ?_⟩
  · intro num size
    simp [historyInv, resetGame]
  · intro size s bi ci hs
    by_cases hcond : (s.boards.getD bi []).getD ci Cell.marked ≠ Cell.empty
        ∨ isBoardDeadApp size (s.boards.getD bi []) = true
    · rw [handleMove_refused_eq hcond]
      exact hs
    · push_neg at hcond
      obtain ⟨hc, hd⟩ := hcond
      rw [handleMove_legal_eq rfl hc (by simpa using hd)]
      split <;> simp [historyInv]
  · intro coins s hs
    unfold handleUndo
    split
    · split
      · simp only [historyInv]
        have hlen : (s.gameHistory.take (s.gameHistory.length - 2)).length =
            s.gameHistory.length - 2 := by
          rw [List.length_take]
          omega
        rw [List.getLast?_eq_getElem?, hlen]
        have hidx : s.gameHistory.length - 2 - 1 = s.gameHistory.length - 3 := by omega
        rw [hidx, List.getElem?_take, if_pos (by omega)]
        have hb3 : s.gameHistory.length - 3 < s.gameHistory.length := by omega
        rw [List.getElem?_eq_getElem hb3, List.getD_eq_getElem?_getD,
          List.getElem?_eq_getElem hb3]
        rfl
      · exact hs
    · exact hs

def stateUndo2 : GameState :=
  { boards := [[Cell.marked, Cell.marked, Cell.empty, Cell.empty]],
    currentPlayer := Player.one,
    gameHistory := [[[Cell.empty, Cell.empty, Cell.empty, Cell.empty]],
                    [[Cell.marked, Cell.empty, Cell.empty, Cell.empty]],
                    [[Cell.marked, Cell.marked, Cell.empty, Cell.empty]]] }

theorem history_last_invariant_witness :
    historyInv (resetGame 3 3) ∧
    (historyInv stateEmpty2 ∧ historyInv (handleMove 2 stateEmpty2 0 0).1) ∧
    (historyInv stateUndo2 ∧ historyInv (handleUndo 150 stateUndo2)) :=
  ⟨history_last_invariant.1 3 3,
   ⟨by decide, history_last_invariant.2.1 2 stateEmpty2 0 0 (by decide)⟩,
   ⟨by decide, history_last_invariant.2.2 150 stateUndo2 (by decide)⟩⟩

/-- Per-board contribution as section 4.4 of the spec words it: a dead board
contributes 0; a live board is charged 10 for the first pattern that is one
mark short of complete, plus 1 for each pattern seen before it that is two
marks short; with no one-short pattern, 1 for every two-short pattern. -/
def boardContribution (size : Nat) (board : Board) : ℤ :=
  if isBoardDead board size then 0
  else
    if (getWinPatterns size).any
        (fun p => decide ((countMarked board p : ℤ) = (size : ℤ) - 1)) then
      -10 - (((getWinPatterns size).takeWhile
          (fun p => !decide ((countMarked board p : ℤ) = (size : ℤ) - 1))).countP
          (fun p => decide ((countMarked board p : ℤ) = (size : ℤ) - 2)) : ℤ)
    else
      -((getWinPatterns size).countP
          (fun p => decide ((countMarked board p : ℤ) = (size : ℤ) - 2)) : ℤ)

lemma scanPatterns_spec (b : Board) (s1 : ℤ) :
    ∀ (ps : List (List Nat)) (acc : ℤ),
      scanPatterns b s1 ps acc = acc +
        (if ps.any (fun p => decide ((countMarked b p : ℤ) = s1)) then
          -10 - ((ps.takeWhile (fun p => !decide ((countMarked b p : ℤ) = s1))).countP
              (fun p => decide ((countMarked b p : ℤ) = s1 - 1)) : ℤ)
        else
          -(ps.countP (fun p => decide ((countMarked b p : ℤ) = s1 - 1)) : ℤ)) := by
  intro ps
  induction ps with
  | nil => intro acc; simp [scanPatterns]
  | cons p ps ih =>
    intro acc
    by_cases hB : (countMarked b p : ℤ) = s1
    · rw [scanPatterns, if_pos hB, List.any_cons, List.takeWhile_cons,
        decide_eq_true hB]
      simp
      ring
    · by_cases hC : (countMarked b p : ℤ) = s1 - 1
      · rw [scanPatterns, if_neg hB, if_pos hC, ih, List.any_cons,
          List.takeWhile_cons, decide_eq_false hB]
        by_cases hA : (ps.any fun q => decide ((countMarked b q : ℤ) = s1)) = true
        · simp [hA, List.countP_cons, hC]
          ring
        · rw [Bool.not_eq_true] at hA
          simp [hA, List.countP_cons, hC]
          ring
      · rw [scanPatterns, if_neg hB, if_neg hC, ih, List.any_cons,
          List.takeWhile_cons, decide_eq_false hB]
        by_cases hA : (ps.any fun q => decide ((countMarked b q : ℤ) = s1)) = true
        · simp [hA, List.countP_cons, hC]
        · rw [Bool.not_eq_true] at hA
          simp [hA, List.countP_cons, hC]

lemma heuristic_foldl (size : Nat) :
    ∀ (l : List Board) (acc : ℤ),
      l.foldl (fun score b =>
        if isBoardDead b size then score
        else score + scanPatterns b ((size : ℤ) - 1) (getWinPatterns size) 0) acc
      = acc + (l.map (boardContribution size)).sum := by
  intro l
  induction l with
  | nil => intro acc; simp
  | cons b l ih =>
    intro acc
    rw [List.foldl_cons, List.map_cons, List.sum_cons]
    by_cases hd : isBoardDead b size = true
    · rw [if_pos hd, ih, boardContribution, if_pos hd]
      ring
    · rw [Bool.not_eq_true] at hd
      rw [if_neg (by simp [hd]), ih, boardContribution, if_neg (by simp [hd])]
      rw [scanPatterns_spec]
      have hshift : (size : ℤ) - 1 - 1 = (size : ℤ) - 2 := by ring
      rw [hshift]
      ring

/-- C7: the heuristic score is the sum over boards of the per-board
contribution the spec describes: 0 for a dead board, and for a live board a
charge of 10 at the first one-mark-short pattern (scanning then stops) plus
1 for each two-marks-short pattern seen before it. -/
theorem heuristic_eq_sum_contributions (boards : List Board) (size : Nat) :
    heuristic boards size = (boards.map (boardContribution size)).sum := by
  unfold heuristic
  rw [heuristic_foldl]
  ring

/-! Helper lemmas about move generation and root-move selection. -/

lemma insertMove_perm (size : Nat) (m : Move) (l : List Move) :
    (insertMove size m l).Perm (m :: l) := by
  induction l with
  | nil => exact List.Perm.refl _
  | cons y ys ih =>
    rw [insertMove]
    by_cases h : moveLE size m y = true
    · rw [if_pos h]
    · rw [if_neg h]
      exact (ih.cons y).trans (List.Perm.swap m y ys)

lemma sortMoves_perm (size : Nat) (l : List Move) : (sortMoves size l).Perm l := by
  induction l with
  | nil => exact List.Perm.refl _
  | cons x xs ih => exact (insertMove_perm size x (sortMoves size xs)).trans (ih.cons x)

lemma mem_getValidMovesUnsorted {boards : List Board} {size : Nat} {m : Move} :
    m ∈ getValidMovesUnsorted boards size ↔
      m.boardIndex < boards.length ∧
      isBoardDead (boards.getD m.boardIndex []) size = false ∧
      m.cellIndex < (boards.getD m.boardIndex []).length ∧
      (boards.getD m.boardIndex []).getD m.cellIndex Cell.marked = Cell.empty := by
  unfold getValidMovesUnsorted
  simp only [List.mem_flatMap, List.mem_range]
  constructor
  · rintro ⟨bi, hbi, hm⟩
    by_cases hd : isBoardDead (boards.getD bi []) size = true
    · rw [if_pos hd] at hm
      simp at hm
    · rw [Bool.not_eq_true] at hd
      rw [if_neg (by simp only [hd]; simp)] at hm
      simp only [List.mem_filterMap, List.mem_range] at hm
      obtain ⟨ci, hci, hcell⟩ := hm
      by_cases hcv : (boards.getD bi []).getD ci Cell.marked = Cell.empty
      · rw [if_pos hcv] at hcell
        cases hcell
        exact ⟨hbi, hd, hci, hcv⟩
      · rw [if_neg hcv] at hcell
        cases hcell
  · rintro ⟨hbi, hd, hci, hcv⟩
    refine ⟨m.boardIndex, hbi, ?_⟩
    rw [if_neg (by simp only [hd]; simp)]
    simp only [List.mem_filterMap, List.mem_range]
    exact ⟨m.cellIndex, hci, by rw [if_pos hcv]⟩

lemma mem_getValidMoves {boards : List Board} {size : Nat} {m : Move} :
    m ∈ getValidMoves boards size ↔
      m.boardIndex < boards.length ∧
      isBoardDead (boards.getD m.boardIndex []) size = false ∧
      m.cellIndex < (boards.getD m.boardIndex []).length ∧
      (boards.getD m.boardIndex []).getD m.cellIndex Cell.marked = Cell.empty := by
  rw [getValidMoves, (sortMoves_perm size _).mem_iff]
  exact mem_getValidMovesUnsorted

lemma getValidMoves_nil_iff {boards : List Board} {size : Nat} :
    getValidMoves boards size = [] ↔ getValidMovesUnsorted boards size = [] := by
  have hp := sortMoves_perm size (getValidMovesUnsorted boards size)
  constructor
  · intro h
    have := hp.length_eq
    rw [getValidMoves] at h
    rw [h] at this
    exact List.eq_nil_of_length_eq_zero this.symm
  · intro h
    rw [getValidMoves, h]
    rfl

lemma noMoves_iff {boards : List Board} {size : Nat} :
    getValidMoves boards size = [] ↔
      ∀ b ∈ boards, isBoardDead b size = true ∨ ∀ c ∈ b, c ≠ Cell.empty := by
  rw [getValidMoves_nil_iff, List.eq_nil_iff_forall_not_mem]
  constructor
  · intro h b hb
    rw [List.mem_iff_getElem] at hb
    obtain ⟨bi, hbi, rfl⟩ := hb
    by_contra hcon
    push_neg at hcon
    obtain ⟨hd, c, hc, hcv⟩ := hcon
    rw [List.mem_iff_getElem] at hc
    obtain ⟨ci, hci, rfl⟩ := hc
    refine h ⟨bi, ci⟩ (mem_getValidMovesUnsorted.2 ⟨hbi, ?_, ?_, ?_⟩)
    · rw [List.getD_eq_getElem _ _ hbi]
      simpa using hd
    · rw [List.getD_eq_getElem _ _ hbi]
      exact hci
    · rw [List.getD_eq_getElem _ _ hbi, List.getD_eq_getElem _ _ hci]
      exact hcv
  · intro h m hm
    rw [mem_getValidMovesUnsorted] at hm
    obtain ⟨hbi, hd, hci, hcv⟩ := hm
    rcases h (boards.getD m.boardIndex []) (by
        rw [List.getD_eq_getElem _ _ hbi]
        exact List.getElem_mem hbi) with hdead | hfull
    · rw [hdead] at hd
      cases hd
    · refine hfull ((boards.getD m.boardIndex []).getD m.cellIndex Cell.marked) ?_ hcv
      rw [List.getD_eq_getElem _ _ hci]
      exact List.getElem_mem hci

/-- Evaluated prefix of the root-move list: `findBestMove` scores moves in
order and stops immediately after one that scores plus infinity. -/
def scannedUpToTop (f : Move → Score) : List Move → List Move
  | [] => []
  | m :: rest => if f m = ⊤ then [m] else m :: scannedUpToTop f rest

/-- Maximum score over the evaluated prefix. -/
def prefSup (f : Move → Score) (ms : List Move) : Score :=
  ((scannedUpToTop f ms).map f).foldr max ⊥

lemma scannedUpToTop_sub (f : Move → Score) :
    ∀ {ms : List Move} {m : Move}, m ∈ scannedUpToTop f ms → m ∈ ms := by
  intro ms
  induction ms with
  | nil => intro m h; exact absurd h (by simp [scannedUpToTop])
  | cons x rest ih =>
    intro m h
    rw [scannedUpToTop] at h
    by_cases hx : f x = ⊤
    · rw [if_pos hx, List.mem_singleton] at h
      rw [h]
      exact List.mem_cons_self x rest
    · rw [if_neg hx, List.mem_cons] at h
      rcases h with rfl | h
      · exact List.mem_cons_self m rest
      · exact List.mem_cons_of_mem x (ih h)

lemma foldr_max_attained (f : Move → Score) :
    ∀ (l : List Move), l ≠ [] → ∃ m ∈ l, f m = (l.map f).foldr max ⊥ := by
  intro l
  induction l with
  | nil => intro h; exact absurd rfl h
  | cons x xs ih =>
    intro _
    by_cases hxs : xs = []
    · subst hxs
      exact ⟨x, List.mem_cons_self x [], (max_eq_left bot_le).symm⟩
    · obtain ⟨y, hy, hfy⟩ := ih hxs
      rw [List.map_cons, List.foldr_cons]
      rcases max_choice (f x) ((xs.map f).foldr max ⊥) with h | h
      · exact ⟨x, List.mem_cons_self x xs, h.symm⟩
      · exact ⟨y, List.mem_cons_of_mem x hy, by rw [h, hfy]⟩

lemma prefSup_attained (f : Move → Score) {ms : List Move} (h : ms ≠ []) :
    ∃ m ∈ scannedUpToTop f ms, f m = prefSup f ms := by
  rw [prefSup]
  apply foldr_max_attained
  cases ms with
  | nil => exact absurd rfl h
  | cons x rest =>
    rw [scannedUpToTop]
    by_cases hx : f x = ⊤
    · rw [if_pos hx]
      simp
    · rw [if_neg hx]
      simp


lemma fbStep_lt {m : Move} {s bs : Score} {bm : List Move} (h : bs < s) :
    fbStep m s bs bm = (s, [m]) := by
  rw [fbStep, if_pos h]

lemma fbStep_eq {m : Move} {s bs : Score} {bm : List Move} (h : s = bs) :
    fbStep m s bs bm = (bs, bm ++ [m]) := by
  rw [fbStep, if_neg (by rw [h]; exact lt_irrefl bs), if_pos h]

lemma fbStep_gt {m : Move} {s bs : Score} {bm : List Move} (h : s < bs) :
    fbStep m s bs bm = (bs, bm) := by
  rw [fbStep, if_neg (not_lt_of_lt h), if_neg (ne_of_lt h)]

lemma scannedUpToTop_cons_top {f : Move → Score} {m : Move} {rest : List Move}
    (h : f m = ⊤) : scannedUpToTop f (m :: rest) = [m] := by
  rw [scannedUpToTop, if_pos h]

lemma scannedUpToTop_cons {f : Move → Score} {m : Move} {rest : List Move}
    (h : ¬ f m = ⊤) : scannedUpToTop f (m :: rest) = m :: scannedUpToTop f rest := by
  rw [scannedUpToTop, if_neg h]

lemma prefSup_cons_top {f : Move → Score} {m : Move} {rest : List Move}
    (h : f m = ⊤) : prefSup f (m :: rest) = ⊤ := by
  rw [prefSup, scannedUpToTop_cons_top h]
  simp [h]

lemma prefSup_cons {f : Move → Score} {m : Move} {rest : List Move}
    (h : ¬ f m = ⊤) : prefSup f (m :: rest) = max (f m) (prefSup f rest) := by
  rw [prefSup, scannedUpToTop_cons h, List.map_cons, List.foldr_cons, prefSup]

lemma pairFst (a : Score) (l : List Move) : ((a, l) : Score × List Move).1 = a := rfl

lemma pairSnd (a : Score) (l : List Move) : ((a, l) : Score × List Move).2 = l := rfl

lemma fbLoop_spec (f : Move → Score) :
    ∀ (ms : List Move) (bs : Score) (bm : List Move),
      fbLoop f ms bs bm =
        (max bs (prefSup f ms),
         (if prefSup f ms ≤ bs then bm else []) ++
           (scannedUpToTop f ms).filter (fun m => decide (f m = max bs (prefSup f ms)))) := by
  intro ms
  induction ms with
  | nil =>
    intro bs bm
    rw [fbLoop]
    have h1 : prefSup f [] = ⊥ := rfl
    rw [h1]
    simp [scannedUpToTop]
  | cons m rest ih =>
    intro bs bm
    rw [fbLoop]
    by_cases htop : f m = ⊤
    · rw [if_pos htop, prefSup_cons_top htop, scannedUpToTop_cons_top htop]
      have hmax : max bs (⊤ : Score) = ⊤ := max_eq_right le_top
      rw [hmax]
      by_cases hbs : bs = ⊤
      · rw [fbStep_eq (htop.trans hbs.symm), if_pos (le_of_eq hbs.symm)]
        simp [htop, hbs]
      · rw [fbStep_lt (by rw [htop]; exact lt_top_iff_ne_top.2 hbs)]
        rw [if_neg (fun hc => hbs (top_le_iff.1 hc))]
        simp [htop]
    · rw [if_neg htop, prefSup_cons htop, scannedUpToTop_cons htop]
      rcases lt_trichotomy bs (f m) with hc | hc | hc
      · rw [fbStep_lt hc, ih, pairFst, pairSnd]
        have h1 : max bs (max (f m) (prefSup f rest)) = max (f m) (prefSup f rest) :=
          max_eq_right (le_trans (le_of_lt hc) (le_max_left _ _))
        rw [h1]
        have h2 : ¬ max (f m) (prefSup f rest) ≤ bs :=
          fun hle => absurd (le_trans (le_max_left _ _) hle) (not_le_of_lt hc)
        rw [if_neg h2, List.filter_cons]
        by_cases hP : prefSup f rest ≤ f m
        · have hm1 : max (f m) (prefSup f rest) = f m := max_eq_left hP
          rw [hm1, if_pos hP, if_pos (by simp : decide (f m = f m) = true)]
          rfl
        · have hm1 : max (f m) (prefSup f rest) = prefSup f rest :=
            max_eq_right (le_of_not_le hP)
          rw [hm1, if_neg hP]
          have hne : ¬ f m = prefSup f rest := by
            intro heq
            exact hP (le_of_eq heq.symm)
          rw [if_neg (by simpa using hne)]
      · rw [fbStep_eq hc.symm, ih, pairFst, pairSnd]
        have h1 : max bs (max (f m) (prefSup f rest)) = max bs (prefSup f rest) := by
          rw [← hc, ← max_assoc, max_self]
        rw [h1]
        have h2 : (max (f m) (prefSup f rest) ≤ bs) ↔ (prefSup f rest ≤ bs) := by
          rw [max_le_iff]
          constructor
          · exact fun h => h.2
          · exact fun h => ⟨le_of_eq hc.symm, h⟩
        by_cases hP : prefSup f rest ≤ bs
        · rw [if_pos (h2.2 hP), if_pos hP]
          have h3 : max bs (prefSup f rest) = bs := max_eq_left hP
          rw [h3, List.filter_cons, if_pos (by simp [hc] : decide (f m = bs) = true)]
          rw [List.append_assoc]
          rfl
        · rw [if_neg (fun hle => hP (h2.1 hle)), if_neg hP]
          have h3 : bs < max bs (prefSup f rest) :=
            lt_of_lt_of_le (lt_of_not_le hP) (le_max_right _ _)
          have hne : ¬ f m = max bs (prefSup f rest) := by
            intro heq
            rw [← hc] at heq
            exact absurd heq (ne_of_lt h3)
          rw [List.filter_cons,
            if_neg (show ¬ decide (f m = max bs (prefSup f rest)) = true by simpa using hne)]
      · rw [fbStep_gt hc, ih, pairFst, pairSnd]
        have h1 : max bs (max (f m) (prefSup f rest)) = max bs (prefSup f rest) := by
          rw [← max_assoc, max_eq_left (le_of_lt hc)]
        rw [h1]
        have h2 : (max (f m) (prefSup f rest) ≤ bs) ↔ (prefSup f rest ≤ bs) := by
          rw [max_le_iff]
          constructor
          · exact fun h => h.2
          · exact fun h => ⟨le_of_lt hc, h⟩
        have hne : ¬ f m = max bs (prefSup f rest) := by
          intro heq
          have hle : bs ≤ f m := le_trans (le_max_left _ _) (le_of_eq heq.symm)
          exact absurd hle (not_le_of_lt hc)
        by_cases hP : prefSup f rest ≤ bs
        · rw [if_pos (h2.2 hP), if_pos hP, List.filter_cons,
            if_neg (show ¬ decide (f m = max bs (prefSup f rest)) = true by simpa using hne)]
        · rw [if_neg (fun hle => hP (h2.1 hle)), if_neg hP, List.filter_cons,
            if_neg (show ¬ decide (f m = max bs (prefSup f rest)) = true by simpa using hne)]

lemma ratFloor_eq_intFloor (q : ℚ) : Rat.floor q = ⌊q⌋ := by
  rw [Rat.floor_def', Rat.floor_def]

lemma floor_index_lt {r : ℚ} {L : Nat} (hL : 0 < L) (h0 : 0 ≤ r) (h1 : r < 1) :
    (Rat.floor (r * (L : ℚ))).toNat < L := by
  rw [ratFloor_eq_intFloor]
  have hLq : (0 : ℚ) < (L : ℚ) := by exact_mod_cast hL
  have h2 : r * (L : ℚ) < (L : ℚ) := by
    calc r * (L : ℚ) < 1 * (L : ℚ) := mul_lt_mul_of_pos_right h1 hLq
    _ = (L : ℚ) := one_mul _
  have h3 : ⌊r * (L : ℚ)⌋ < (L : ℤ) := Int.floor_lt.2 (by exact_mod_cast h2)
  have h4 : 0 ≤ ⌊r * (L : ℚ)⌋ := Int.floor_nonneg.2 (mul_nonneg h0 (le_of_lt hLq))
  exact (Int.toNat_lt h4).2 h3

lemma bestMovesOf_eq (boards : List Board) (difficulty size numberOfBoards : Nat) :
    bestMovesOf boards difficulty size numberOfBoards =
      (scannedUpToTop (moveScoreAt boards (getMaxDepth size numberOfBoards difficulty) size)
          (getValidMoves boards size)).filter
        (fun m => decide
          (moveScoreAt boards (getMaxDepth size numberOfBoards difficulty) size m =
            prefSup (moveScoreAt boards (getMaxDepth size numberOfBoards difficulty) size)
              (getValidMoves boards size))) := by
  rw [bestMovesOf, fbLoop_spec, pairSnd]
  rw [max_eq_right bot_le, ite_self, List.nil_append]

lemma bestMovesOf_ne_nil (boards : List Board) (difficulty size numberOfBoards : Nat)
    (h : getValidMoves boards size ≠ []) :
    bestMovesOf boards difficulty size numberOfBoards ≠ [] := by
  rw [bestMovesOf_eq]
  obtain ⟨m, hm, hfm⟩ := prefSup_attained
    (moveScoreAt boards (getMaxDepth size numberOfBoards difficulty) size) h
  intro hnil
  have : m ∈ ([] : List Move) := by
    rw [← hnil]
    exact List.mem_filter.2 ⟨hm, by simp [hfm]⟩
  cases this

lemma bestMovesOf_sub (boards : List Board) (difficulty size numberOfBoards : Nat)
    {m : Move} (h : m ∈ bestMovesOf boards difficulty size numberOfBoards) :
    m ∈ getValidMoves boards size := by
  rw [bestMovesOf_eq] at h
  exact scannedUpToTop_sub _ (List.mem_filter.1 h).1

/-- C3: `findBestMove` reports an explicit absence of a move exactly when no
legal move exists (every board dead or without an empty cell), and any move
it returns targets a live board and an empty cell. -/
theorem findBestMove_legal (boards : List Board) (difficulty size numberOfBoards : Nat)
    (r : ℚ) (hr0 : 0 ≤ r) (hr1 : r < 1) :
    (findBestMove r boards difficulty size numberOfBoards = none ↔
      getValidMoves boards size = []) ∧
    (getValidMoves boards size = [] ↔
      ∀ b ∈ boards, isBoardDead b size = true ∨ ∀ c ∈ b, c ≠ Cell.empty) ∧
    (∀ m, findBestMove r boards difficulty size numberOfBoards = some m →
      isBoardDead (boards.getD m.boardIndex []) size = false ∧
      (boards.getD m.boardIndex []).getD m.cellIndex Cell.marked = Cell.empty) := by
  refine ⟨⟨?_, ?_⟩, noMoves_iff, ?_⟩
  · intro hnone
    by_contra hmv
    rw [findBestMove, if_neg hmv] at hnone
    have hlen : 0 < (bestMovesOf boards difficulty size numberOfBoards).length :=
      List.length_pos.2 (bestMovesOf_ne_nil boards difficulty size numberOfBoards hmv)
    have hidx := floor_index_lt hlen hr0 hr1
    rw [List.getElem?_eq_getElem hidx] at hnone
    cases hnone
  · intro h
    rw [findBestMove, if_pos h]
  · intro m hm
    by_cases hmv : getValidMoves boards size = []
    · rw [findBestMove, if_pos hmv] at hm
      cases hm
    · rw [findBestMove, if_neg hmv] at hm
      have hmem : m ∈ bestMovesOf boards difficulty size numberOfBoards := by
        obtain ⟨hlt, hEq⟩ := List.getElem?_eq_some.1 hm
        rw [← hEq]
        exact List.getElem_mem hlt
      have hmoves := bestMovesOf_sub boards difficulty size numberOfBoards hmem
      have hchar := mem_getValidMoves.1 hmoves
      exact ⟨hchar.2.1, hchar.2.2.2⟩

theorem findBestMove_legal_witness :
    ((0 : ℚ) ≤ 0 ∧ (0 : ℚ) < 1) ∧
    ((findBestMove 0 liveSet2 1 2 1 = none ↔ getValidMoves liveSet2 2 = []) ∧
    (getValidMoves liveSet2 2 = [] ↔
      ∀ b ∈ liveSet2, isBoardDead b 2 = true ∨ ∀ c ∈ b, c ≠ Cell.empty) ∧
    (∀ m, findBestMove 0 liveSet2 1 2 1 = some m →
      isBoardDead (liveSet2.getD m.boardIndex []) 2 = false ∧
      (liveSet2.getD m.boardIndex []).getD m.cellIndex Cell.marked = Cell.empty)) :=
  ⟨⟨le_refl 0, by norm_num⟩, findBestMove_legal liveSet2 1 2 1 0 (le_refl 0) (by norm_num)⟩

lemma foldr_max_le (f : Move → Score) :
    ∀ (l : List Move) {m : Move}, m ∈ l → f m ≤ (l.map f).foldr max ⊥ := by
  intro l
  induction l with
  | nil => intro m h; cases h
  | cons x xs ih =>
    intro m h
    rw [List.map_cons, List.foldr_cons]
    rcases List.mem_cons.1 h with rfl | h
    · exact le_max_left _ _
    · exact le_trans (ih h) (le_max_right _ _)

lemma floor_frac_mul {k L : Nat} (hk : k < L) :
    (Rat.floor ((k : ℚ) / (L : ℚ) * (L : ℚ))).toNat = k := by
  have hL0 : (L : ℚ) ≠ 0 := by
    have : 0 < L := lt_of_le_of_lt (Nat.zero_le k) hk
    exact_mod_cast Nat.pos_iff_ne_zero.1 this
  rw [div_mul_cancel₀ _ hL0, ratFloor_eq_intFloor, Int.floor_natCast]
  exact Int.toNat_natCast k

lemma frac_nonneg_lt_one {k L : Nat} (hk : k < L) :
    0 ≤ (k : ℚ) / (L : ℚ) ∧ (k : ℚ) / (L : ℚ) < 1 := by
  have hL : (0 : ℚ) < (L : ℚ) := by
    exact_mod_cast lt_of_le_of_lt (Nat.zero_le k) hk
  constructor
  · exact div_nonneg (by positivity) (le_of_lt hL)
  · rw [div_lt_one hL]
    exact_mod_cast hk

/-- C4: with at least one legal move, the tied-best list tracked by
`findBestMove` is exactly the set of evaluated moves achieving the maximum
root score (over the prefix scanned before the early exit on plus infinity);
every admissible random draw returns a member of that list; every member of
that list is returned for some admissible draw; and with a single legal move
that move is always returned. -/
theorem findBestMove_tiebreak (boards : List Board) (difficulty size numberOfBoards : Nat)
    (hne : getValidMoves boards size ≠ []) :
    (bestMovesOf boards difficulty size numberOfBoards =
      (scannedUpToTop (moveScoreAt boards (getMaxDepth size numberOfBoards difficulty) size)
          (getValidMoves boards size)).filter
        (fun m => decide
          (moveScoreAt boards (getMaxDepth size numberOfBoards difficulty) size m =
            prefSup (moveScoreAt boards (getMaxDepth size numberOfBoards difficulty) size)
              (getValidMoves boards size)))) ∧
    (∀ m ∈ scannedUpToTop (moveScoreAt boards (getMaxDepth size numberOfBoards difficulty) size)
        (getValidMoves boards size),
      moveScoreAt boards (getMaxDepth size numberOfBoards difficulty) size m ≤
        prefSup (moveScoreAt boards (getMaxDepth size numberOfBoards difficulty) size)
          (getValidMoves boards size)) ∧
    (∀ r : ℚ, 0 ≤ r → r < 1 →
      ∃ m, findBestMove r boards difficulty size numberOfBoards = some m ∧
        m ∈ bestMovesOf boards difficulty size numberOfBoards) ∧
    (∀ m ∈ bestMovesOf boards difficulty size numberOfBoards,
      ∃ r : ℚ, 0 ≤ r ∧ r < 1 ∧
        findBestMove r boards difficulty size numberOfBoards = some m) ∧
    (∀ m, getValidMoves boards size = [m] →
      ∀ r : ℚ, 0 ≤ r → r < 1 →
        findBestMove r boards difficulty size numberOfBoards = some m) := by
  refine ⟨bestMovesOf_eq boards difficulty size numberOfBoards, ?_, ?_, ?_, ?_⟩
  · intro m hm
    rw [prefSup]
    exact foldr_max_le _ _ hm
  · intro r hr0 hr1
    have hlen : 0 < (bestMovesOf boards difficulty size numberOfBoards).length :=
      List.length_pos.2 (bestMovesOf_ne_nil boards difficulty size numberOfBoards hne)
    have hidx := floor_index_lt hlen hr0 hr1
    refine ⟨(bestMovesOf boards difficulty size numberOfBoards).get ⟨_, hidx⟩, ?_, ?_⟩
    · rw [findBestMove, if_neg hne, List.getElem?_eq_getElem hidx]
      rfl
    · exact List.get_mem _ _ hidx
  · intro m hm
    rw [List.mem_iff_getElem] at hm
    obtain ⟨k, hk, hget⟩ := hm
    refine ⟨(k : ℚ) / ((bestMovesOf boards difficulty size numberOfBoards).length : ℚ),
      (frac_nonneg_lt_one hk).1, (frac_nonneg_lt_one hk).2, ?_⟩
    rw [findBestMove, if_neg hne, floor_frac_mul hk, List.getElem?_eq_getElem hk, hget]
  · intro m hmoves r hr0 hr1
    have hF : prefSup (moveScoreAt boards (getMaxDepth size numberOfBoards difficulty) size)
        [m] = moveScoreAt boards (getMaxDepth size numberOfBoards difficulty) size m := by
      rw [prefSup, scannedUpToTop]
      by_cases htop : moveScoreAt boards (getMaxDepth size numberOfBoards difficulty) size m = ⊤
      · rw [if_pos htop]
        simp [htop]
      · rw [if_neg htop]
        simp [scannedUpToTop]
    have hbm : bestMovesOf boards difficulty size numberOfBoards = [m] := by
      rw [bestMovesOf_eq, hmoves, hF, scannedUpToTop]
      by_cases htop : moveScoreAt boards (getMaxDepth size numberOfBoards difficulty) size m = ⊤
      · rw [if_pos htop]
        simp
      · rw [if_neg htop]
        simp [scannedUpToTop]
    rw [findBestMove, if_neg hne, hbm]
    have hfloor : (Rat.floor (r * ((([m] : List Move).length : Nat) : ℚ))).toNat = 0 := by
      have h1 : (([m] : List Move).length : ℚ) = 1 := by norm_num
      rw [h1, mul_one, ratFloor_eq_intFloor]
      rw [Int.floor_eq_zero_iff.2 ⟨hr0, hr1⟩]
      rfl
    rw [hfloor]
    rfl

def liveTwo2 : List Board :=
  [[Cell.marked, Cell.marked, Cell.empty, Cell.empty],
   [Cell.marked, Cell.empty, Cell.empty, Cell.empty]]

theorem findBestMove_tiebreak_witness :
    getValidMoves liveTwo2 2 ≠ [] ∧
    ((∀ r : ℚ, 0 ≤ r → r < 1 →
      ∃ m, findBestMove r liveTwo2 1 2 2 = some m ∧ m ∈ bestMovesOf liveTwo2 1 2 2) ∧
    (∀ m ∈ bestMovesOf liveTwo2 1 2 2,
      ∃ r : ℚ, 0 ≤ r ∧ r < 1 ∧ findBestMove r liveTwo2 1 2 2 = some m)) :=
  ⟨by decide,
    (findBestMove_tiebreak liveTwo2 1 2 2 (by decide)).2.2.1,
    (findBestMove_tiebreak liveTwo2 1 2 2 (by decide)).2.2.2.1⟩

/-! Helper lemmas for the alpha-beta versus plain minimax comparison. -/

lemma minimaxLoop_nil (rec : List Board → Score → Score → Score) (isMax : Bool)
    (boards : List Board) (best alpha beta : Score) :
    minimaxLoop rec isMax boards [] best alpha beta = best := rfl

lemma minimaxLoop_cons_max (rec : List Board → Score → Score → Score)
    (boards : List Board) (m : Move) (rest : List Move) (best alpha beta : Score) :
    minimaxLoop rec true boards (m :: rest) best alpha beta =
      (if beta ≤ max alpha (rec (updateBoards boards m) alpha beta) then
        max best (rec (updateBoards boards m) alpha beta)
      else minimaxLoop rec true boards rest
        (max best (rec (updateBoards boards m) alpha beta))
        (max alpha (rec (updateBoards boards m) alpha beta)) beta) := rfl

lemma minimaxLoop_cons_min (rec : List Board → Score → Score → Score)
    (boards : List Board) (m : Move) (rest : List Move) (best alpha beta : Score) :
    minimaxLoop rec false boards (m :: rest) best alpha beta =
      (if min beta (rec (updateBoards boards m) alpha beta) ≤ alpha then
        min best (rec (updateBoards boards m) alpha beta)
      else minimaxLoop rec false boards rest
        (min best (rec (updateBoards boards m) alpha beta))
        alpha (min beta (rec (updateBoards boards m) alpha beta))) := rfl

/-- Fold of the plain child values of a max node. -/
def childSup (prec : List Board → Score) (boards : List Board) (ms : List Move) : Score :=
  (ms.map (fun m => prec (updateBoards boards m))).foldr max ⊥

/-- Fold of the plain child values of a min node. -/
def childInf (prec : List Board → Score) (boards : List Board) (ms : List Move) : Score :=
  (ms.map (fun m => prec (updateBoards boards m))).foldr min ⊤

lemma childSup_nil (prec : List Board → Score) (boards : List Board) :
    childSup prec boards [] = ⊥ := rfl

lemma childSup_cons (prec : List Board → Score) (boards : List Board) (m : Move)
    (rest : List Move) :
    childSup prec boards (m :: rest) =
      max (prec (updateBoards boards m)) (childSup prec boards rest) := rfl

lemma childInf_nil (prec : List Board → Score) (boards : List Board) :
    childInf prec boards [] = ⊤ := rfl

lemma childInf_cons (prec : List Board → Score) (boards : List Board) (m : Move)
    (rest : List Move) :
    childInf prec boards (m :: rest) =
      min (prec (updateBoards boards m)) (childInf prec boards rest) := rfl

lemma plainLoop_nil (rec : List Board → Score) (isMax : Bool) (boards : List Board)
    (best : Score) : plainLoop rec isMax boards [] best = best := rfl

lemma plainLoop_cons (rec : List Board → Score) (isMax : Bool) (boards : List Board)
    (m : Move) (rest : List Move) (best : Score) :
    plainLoop rec isMax boards (m :: rest) best =
      plainLoop rec isMax boards rest
        (if isMax then max best (rec (updateBoards boards m))
         else min best (rec (updateBoards boards m))) := rfl

lemma plainLoop_max_eq (rec : List Board → Score) (boards : List Board) :
    ∀ (ms : List Move) (best : Score),
      plainLoop rec true boards ms best = max best (childSup rec boards ms) := by
  intro ms
  induction ms with
  | nil =>
    intro best
    rw [plainLoop_nil, childSup_nil, max_eq_left bot_le]
  | cons m rest ih =>
    intro best
    rw [plainLoop_cons, childSup_cons, if_pos rfl, ih, max_assoc]

lemma plainLoop_min_eq (rec : List Board → Score) (boards : List Board) :
    ∀ (ms : List Move) (best : Score),
      plainLoop rec false boards ms best = min best (childInf rec boards ms) := by
  intro ms
  induction ms with
  | nil =>
    intro best
    rw [plainLoop_nil, childInf_nil, min_eq_left le_top]
  | cons m rest ih =>
    intro best
    rw [plainLoop_cons, childInf_cons, if_neg (by simp), ih, min_assoc]

lemma minimax_allDead (boards : List Board) (depth : Nat) (isMax : Bool) (size : Nat)
    (alpha beta : Score) (h : allDead boards size = true) :
    minimax boards depth isMax size alpha beta = (if isMax then ⊥ else ⊤) := by
  cases depth <;> rw [minimax, if_pos h]

lemma minimax_zero (boards : List Board) (isMax : Bool) (size : Nat)
    (alpha beta : Score) (h : allDead boards size = false) :
    minimax boards 0 isMax size alpha beta = toScore (heuristic boards size) := by
  rw [minimax, if_neg (by simp [h])]

lemma minimax_succ (boards : List Board) (d : Nat) (isMax : Bool) (size : Nat)
    (alpha beta : Score) (h : allDead boards size = false) :
    minimax boards (d + 1) isMax size alpha beta =
      minimaxLoop (fun nb a b => minimax nb d (!isMax) size a b) isMax boards
        (getValidMoves boards size) (if isMax then ⊥ else ⊤) alpha beta := by
  rw [minimax, if_neg (by simp [h])]

lemma minimaxPlain_allDead (boards : List Board) (depth : Nat) (isMax : Bool) (size : Nat)
    (h : allDead boards size = true) :
    minimaxPlain boards depth isMax size = (if isMax then ⊥ else ⊤) := by
  cases depth <;> rw [minimaxPlain, if_pos h]

lemma minimaxPlain_zero (boards : List Board) (isMax : Bool) (size : Nat)
    (h : allDead boards size = false) :
    minimaxPlain boards 0 isMax size = toScore (heuristic boards size) := by
  rw [minimaxPlain, if_neg (by simp [h])]

lemma minimaxPlain_succ (boards : List Board) (d : Nat) (isMax : Bool) (size : Nat)
    (h : allDead boards size = false) :
    minimaxPlain boards (d + 1) isMax size =
      plainLoop (fun nb => minimaxPlain nb d (!isMax) size) isMax boards
        (getValidMoves boards size) (if isMax then ⊥ else ⊤) := by
  rw [minimaxPlain, if_neg (by simp [h])]

/-- Fail-soft value approximation: the pruned value bounds the plain value
from above when it fails low, from below when it fails high, and equals it
inside the window. -/
def ABapprox (v f alpha beta : Score) : Prop :=
  (v ≤ alpha → f ≤ v) ∧ (beta ≤ v → v ≤ f) ∧ (alpha < v → v < beta → v = f)

lemma ABapprox_refl (v alpha beta : Score) : ABapprox v v alpha beta :=
  ⟨fun _ => le_refl v, fun _ => le_refl v, fun _ _ => rfl⟩

lemma loopMax (rec : List Board → Score → Score → Score) (prec : List Board → Score)
    (boards : List Board) (alpha0 beta : Score)
    (hrec : ∀ nb a b, a < b → ABapprox (rec nb a b) (prec nb) a b) :
    ∀ (ms : List Move) (best bestT : Score),
      bestT ≤ best → best ≤ max alpha0 bestT → max alpha0 best < beta →
      ABapprox (minimaxLoop rec true boards ms best (max alpha0 best) beta)
        (max bestT (childSup prec boards ms)) alpha0 beta := by
  intro ms
  induction ms with
  | nil =>
    intro best bestT h1 h2 h3
    rw [minimaxLoop_nil, childSup_nil, max_eq_left bot_le]
    refine ⟨fun _ => h1, fun hb => ?_, fun ha _ => ?_⟩
    · exact absurd h3 (not_lt_of_le (le_trans hb (le_max_right alpha0 best)))
    · rcases le_max_iff.1 h2 with h | h
      · exact absurd h (not_le_of_lt ha)
      · exact (le_antisymm h1 h).symm
  | cons m rest ih =>
    intro best bestT h1 h2 h3
    have child := hrec (updateBoards boards m) (max alpha0 best) beta h3
    rw [minimaxLoop_cons_max, childSup_cons]
    by_cases hcut : beta ≤ max (max alpha0 best)
        (rec (updateBoards boards m) (max alpha0 best) beta)
    · rw [if_pos hcut]
      have hbv : beta ≤ rec (updateBoards boards m) (max alpha0 best) beta := by
        rcases le_max_iff.1 hcut with h | h
        · exact absurd h3 (not_lt_of_le h)
        · exact h
      have hvf := child.2.1 hbv
      refine ⟨fun hv => ?_, fun _ => ?_, fun _ hvb => ?_⟩
      · have hba : beta ≤ alpha0 :=
          le_trans hbv (le_trans (le_max_right best _) hv)
        exact absurd (lt_of_le_of_lt (le_trans hba (le_max_left alpha0 best)) h3)
          (lt_irrefl beta)
      · have hf1F : prec (updateBoards boards m) ≤
            max bestT (max (prec (updateBoards boards m)) (childSup prec boards rest)) :=
          le_trans (le_max_left _ _) (le_max_right _ _)
        refine max_le (le_trans h2 (max_le ?_ (le_max_left _ _))) (le_trans hvf hf1F)
        exact le_trans (le_of_lt (lt_of_le_of_lt (le_max_left alpha0 best) h3))
          (le_trans hbv (le_trans hvf hf1F))
      · exact absurd (lt_of_le_of_lt (le_trans hbv (le_max_right best _)) hvb)
          (lt_irrefl beta)
    · rw [if_neg hcut]
      have hv1b : rec (updateBoards boards m) (max alpha0 best) beta < beta := by
        rcases lt_or_le (rec (updateBoards boards m) (max alpha0 best) beta) beta with h | h
        · exact h
        · exact absurd (le_trans h (le_max_right (max alpha0 best) _)) hcut
      have hkey : prec (updateBoards boards m) ≤
            max best (rec (updateBoards boards m) (max alpha0 best) beta) ∧
          rec (updateBoards boards m) (max alpha0 best) beta ≤
            max alpha0 (max bestT (prec (updateBoards boards m))) := by
        by_cases hva : rec (updateBoards boards m) (max alpha0 best) beta ≤ max alpha0 best
        · have hfv := child.1 hva
          constructor
          · exact le_trans hfv (le_max_right best _)
          · have hb2 : max alpha0 best ≤ max alpha0 bestT :=
              max_le (le_max_left _ _) h2
            refine le_trans hva (le_trans hb2 (max_le (le_max_left _ _) ?_))
            exact le_trans (le_max_left bestT _) (le_max_right alpha0 _)
        · have heq := child.2.2 (lt_of_not_le hva) hv1b
          constructor
          · rw [← heq]
            exact le_max_right best _
          · rw [heq]
            exact le_trans (le_max_right bestT _) (le_max_right alpha0 _)
      have hrw : max (max alpha0 best) (rec (updateBoards boards m) (max alpha0 best) beta) =
          max alpha0 (max best (rec (updateBoards boards m) (max alpha0 best) beta)) :=
        max_assoc alpha0 best _
      rw [hrw]
      have hna : max alpha0 (max best (rec (updateBoards boards m) (max alpha0 best) beta))
          < beta := by
        rw [← hrw]
        exact lt_of_not_le hcut
      have hA : max bestT (prec (updateBoards boards m)) ≤
          max best (rec (updateBoards boards m) (max alpha0 best) beta) :=
        max_le (le_trans h1 (le_max_left best _)) hkey.1
      have hB : max best (rec (updateBoards boards m) (max alpha0 best) beta) ≤
          max alpha0 (max bestT (prec (updateBoards boards m))) := by
        refine max_le (le_trans h2 (max_le (le_max_left _ _) ?_)) hkey.2
        exact le_trans (le_max_left bestT _) (le_max_right alpha0 _)
      have ihap := ih (max best (rec (updateBoards boards m) (max alpha0 best) beta))
        (max bestT (prec (updateBoards boards m))) hA hB hna
      rw [max_assoc] at ihap
      exact ihap

lemma loopMin (rec : List Board → Score → Score → Score) (prec : List Board → Score)
    (boards : List Board) (alpha beta0 : Score)
    (hrec : ∀ nb a b, a < b → ABapprox (rec nb a b) (prec nb) a b) :
    ∀ (ms : List Move) (best bestT : Score),
      best ≤ bestT → min beta0 bestT ≤ best → alpha < min beta0 best →
      ABapprox (minimaxLoop rec false boards ms best alpha (min beta0 best))
        (min bestT (childInf prec boards ms)) alpha beta0 := by
  intro ms
  induction ms with
  | nil =>
    intro best bestT h1 h2 h3
    rw [minimaxLoop_nil, childInf_nil, min_eq_left le_top]
    refine ⟨fun ha => ?_, fun _ => h1, fun _ hb => ?_⟩
    · exact absurd h3 (not_lt_of_le (le_trans (min_le_right beta0 best) ha))
    · rcases min_le_iff.1 h2 with h | h
      · exact absurd hb (not_lt_of_le h)
      · exact le_antisymm h1 h
  | cons m rest ih =>
    intro best bestT h1 h2 h3
    have child := hrec (updateBoards boards m) alpha (min beta0 best) h3
    rw [minimaxLoop_cons_min, childInf_cons]
    by_cases hcut : min (min beta0 best)
        (rec (updateBoards boards m) alpha (min beta0 best)) ≤ alpha
    · rw [if_pos hcut]
      have hva : rec (updateBoards boards m) alpha (min beta0 best) ≤ alpha := by
        rcases min_le_iff.1 hcut with h | h
        · exact absurd h3 (not_lt_of_le h)
        · exact h
      have hfv := child.1 hva
      refine ⟨fun _ => ?_, fun hb => ?_, fun hav _ => ?_⟩
      · have hFf1 : min bestT (min (prec (updateBoards boards m))
            (childInf prec boards rest)) ≤ prec (updateBoards boards m) :=
          le_trans (min_le_right _ _) (min_le_left _ _)
        refine le_min ?_ (le_trans hFf1 hfv)
        refine le_trans (le_min ?_ (min_le_left _ _)) h2
        exact le_trans hFf1 (le_trans hfv (le_trans hva
          (le_of_lt (lt_of_lt_of_le h3 (min_le_left beta0 best)))))
      · have hba : beta0 ≤ alpha := le_trans (le_trans hb (min_le_right best _)) hva
        exact absurd (lt_of_lt_of_le h3 (min_le_left beta0 best)) (not_lt_of_le hba)
      · exact absurd (lt_of_lt_of_le hav (min_le_right best _)) (not_lt_of_le hva)
    · rw [if_neg hcut]
      have hav1 : alpha < rec (updateBoards boards m) alpha (min beta0 best) := by
        rcases lt_or_le alpha (rec (updateBoards boards m) alpha (min beta0 best)) with h | h
        · exact h
        · exact absurd (le_trans (min_le_right (min beta0 best) _) h) hcut
      have hkey : min best (rec (updateBoards boards m) alpha (min beta0 best)) ≤
            prec (updateBoards boards m) ∧
          min beta0 (min bestT (prec (updateBoards boards m))) ≤
            rec (updateBoards boards m) alpha (min beta0 best) := by
        by_cases hvb : min beta0 best ≤ rec (updateBoards boards m) alpha (min beta0 best)
        · have hvf := child.2.1 hvb
          constructor
          · exact le_trans (min_le_right best _) hvf
          · refine le_trans (le_min (min_le_left _ _)
              (le_trans (min_le_min (le_refl beta0) (min_le_left bestT _)) h2)) hvb
        · have heq := child.2.2 hav1 (lt_of_not_le hvb)
          constructor
          · rw [← heq]
            exact min_le_right best _
          · rw [heq]
            exact le_trans (min_le_right beta0 _) (min_le_right bestT _)
      have hrw : min (min beta0 best) (rec (updateBoards boards m) alpha (min beta0 best)) =
          min beta0 (min best (rec (updateBoards boards m) alpha (min beta0 best))) :=
        min_assoc beta0 best _
      rw [hrw]
      have hna : alpha < min beta0
          (min best (rec (updateBoards boards m) alpha (min beta0 best))) := by
        rw [← hrw]
        exact lt_of_not_le hcut
      have hA : min best (rec (updateBoards boards m) alpha (min beta0 best)) ≤
          min bestT (prec (updateBoards boards m)) :=
        le_min (le_trans (min_le_left best _) h1) hkey.1
      have hB : min beta0 (min bestT (prec (updateBoards boards m))) ≤
          min best (rec (updateBoards boards m) alpha (min beta0 best)) :=
        le_min (le_trans (min_le_min (le_refl beta0) (min_le_left bestT _)) h2) hkey.2
      have ihap := ih (min best (rec (updateBoards boards m) alpha (min beta0 best)))
        (min bestT (prec (updateBoards boards m))) hA hB hna
      rw [min_assoc] at ihap
      exact ihap

lemma minimax_approx (size : Nat) :
    ∀ (depth : Nat) (boards : List Board) (isMax : Bool) (alpha beta : Score),
      alpha < beta →
      ABapprox (minimax boards depth isMax size alpha beta)
        (minimaxPlain boards depth isMax size) alpha beta := by
  intro depth
  induction depth with
  | zero =>
    intro boards isMax alpha beta hab
    by_cases hd : allDead boards size = true
    · rw [minimax_allDead _ _ _ _ _ _ hd, minimaxPlain_allDead _ _ _ _ hd]
      exact ABapprox_refl _ _ _
    · rw [Bool.not_eq_true] at hd
      rw [minimax_zero _ _ _ _ _ hd, minimaxPlain_zero _ _ _ hd]
      exact ABapprox_refl _ _ _
  | succ d ihd =>
    intro boards isMax alpha beta hab
    by_cases hd : allDead boards size = true
    · rw [minimax_allDead _ _ _ _ _ _ hd, minimaxPlain_allDead _ _ _ _ hd]
      exact ABapprox_refl _ _ _
    · rw [Bool.not_eq_true] at hd
      rw [minimax_succ _ _ _ _ _ _ hd, minimaxPlain_succ _ _ _ _ hd]
      cases isMax with
      | true =>
        have hstart : (if (true = true) then (⊥ : Score) else ⊤) = ⊥ := rfl
        rw [hstart, plainLoop_max_eq, max_eq_right bot_le]
        have hloop := loopMax (fun nb a b => minimax nb d (!true) size a b)
          (fun nb => minimaxPlain nb d (!true) size) boards alpha beta
          (fun nb a b h => ihd nb (!true) a b h)
          (getValidMoves boards size) ⊥ ⊥ (le_refl ⊥) bot_le
          (by rw [max_eq_left bot_le]; exact hab)
        rw [max_eq_left bot_le, max_eq_right bot_le] at hloop
        exact hloop
      | false =>
        have hstart : (if (false = true) then (⊥ : Score) else ⊤) = ⊤ := rfl
        rw [hstart, plainLoop_min_eq, min_eq_right le_top]
        have hloop := loopMin (fun nb a b => minimax nb d (!false) size a b)
          (fun nb => minimaxPlain nb d (!false) size) boards alpha beta
          (fun nb a b h => ihd nb (!false) a b h)
          (getValidMoves boards size) ⊤ ⊤ (le_refl ⊤) le_top
          (by rw [min_eq_left le_top]; exact hab)
        rw [min_eq_left le_top, min_eq_right le_top] at hloop
        exact hloop

/-- C6: the alpha-beta pruned search invoked with the full window returns
exactly the value of plain minimax without pruning, for every board set,
depth, and polarity. -/
theorem minimax_alphabeta_eq_plain (boards : List Board) (depth : Nat) (isMax : Bool)
    (size : Nat) :
    minimax boards depth isMax size ⊥ ⊤ = minimaxPlain boards depth isMax size := by
  have h := minimax_approx size depth boards isMax ⊥ ⊤ (by decide)
  rcases eq_or_lt_of_le (bot_le : (⊥ : Score) ≤ minimax boards depth isMax size ⊥ ⊤)
    with hv | hv
  · have hf := h.1 (le_of_eq hv.symm)
    rw [← hv] at hf ⊢
    exact (le_bot_iff.1 hf).symm
  · rcases eq_or_lt_of_le (le_top : minimax boards depth isMax size ⊥ ⊤ ≤ ⊤) with hv2 | hv2
    · have hf := h.2.1 (le_of_eq hv2.symm)
      rw [hv2]
      exact (top_le_iff.1 (hv2 ▸ hf)).symm
    · exact h.2.2 hv hv2
